import Mathlib

/-!
Verification of the keepass lookup plugin (src/keepass.py) against its
natural-language specification.  Python strings are modelled as `List Char`,
Python dicts as insertion-ordered association lists, and the pykeepass
database handle (an external collaborator) is modelled from the spec's
description of its query interface.
-/

/-- Python strings are modelled as lists of characters. -/
abbrev Str := List Char

/-- The attribute name "password". -/
def passwordKey : Str := "password".toList

/-- The attribute name "attachments". -/
def attachmentsKey : Str := "attachments".toList

/-- The attribute name "group". -/
def groupKey : Str := "group".toList

/-- The attribute name "parentgroup". -/
def parentgroupKey : Str := "parentgroup".toList

/-- The attribute name "history". -/
def historyKey : Str := "history".toList

/-- Values of the non-special entry attributes, as Python objects:
a text, a boolean, the `None` object, or a list of texts. -/
inductive PyVal : Type where
  | text (s : Str)
  | bool (b : Bool)
  | pynone
  | strList (l : List Str)
deriving DecidableEq

/-- Helper for `pyStr`: Python's repr of a string (quotes, escapes elided). -/
def quoteRepr (s : Str) : Str := '\'' :: (s ++ ['\''])

/-- Helper for `pyStr`: join strings with ", " as Python's list repr does. -/
def joinComma : List Str → Str
  | [] => []
  | [s] => s
  | s :: rest => s ++ (',' :: ' ' :: joinComma rest)

/-- Models Python `str()` on the value shapes of `PyVal`:
`str` of a text is the text itself, `str(True) = "True"`,
`str(None) = "None"`, and `str` of a list is its bracketed repr. -/
def pyStr : PyVal → Str
  | .text s => s
  | .bool b => if b then "True".toList else "False".toList
  | .pynone => "None".toList
  | .strList l => '[' :: (joinComma (l.map quoteRepr) ++ [']'])

/-- The failure kinds the plugin can produce.  `nameError` models Python's
`NameError`: the source raises/handles several identifiers
(`AnsibleLookupError`, `CredentialsError`, `HeaderChecksumError`,
`PayloadChecksumError`, `to_native`) that are never imported, so evaluating
those names at runtime raises `NameError`.  `valueError` models the
`ValueError` raised by `list.remove` on a missing element.
`recursionError` models CPython's `RecursionError` when the interpreter's
recursion limit is exhausted.  The two Ansible failure kinds are the ones
the source's `except` clauses intend to raise; they are unreachable because
the `except` clauses themselves hit `NameError` first. -/
inductive Err : Type where
  | nameError
  | valueError
  | recursionError
  | ansibleAuthenticationFailure
  | ansibleConnectionFailure
deriving DecidableEq

/-- Python `list.remove`: removes the first occurrence of `a`, raising
`ValueError` when `a` is absent (src/keepass.py lines 110, 113, 115, 117,
119, 121). -/
def removeE : List Str → Str → Except Err (List Str)
  | [], _ => .error .valueError
  | x :: xs, a =>
      if x = a then .ok xs
      else
        match removeE xs a with
        | .error e => .error e
        | .ok r => .ok (x :: r)

mutual
/-- A value stored in a serialized record: the code stores texts (from
`str(...)`), lists of texts (attachment filenames) and lists of records
(history).  The `bool` constructor exists so that the spec's claimed
"native pass-through" of boolean attribute values is expressible. -/
inductive RVal : Type where
  | text (s : Str)
  | bool (b : Bool)
  | textList (l : List Str)
  | recList (rs : RecList)
/-- A serialized record: a Python dict modelled as an insertion-ordered
association list from attribute names to values. -/
inductive Rec : Type where
  | nil
  | cons (k : Str) (v : RVal) (r : Rec)
/-- A list of serialized records (the value of the `history` key). -/
inductive RecList : Type where
  | rnil
  | rcons (r : Rec) (rs : RecList)
end

/-- Dict lookup on a serialized record. -/
def rlookup : Rec → Str → Option RVal
  | .nil, _ => none
  | .cons k' v r, k => if k' = k then some v else rlookup r k

/-- Whether a serialized record has a key. -/
def hasKey (r : Rec) (k : Str) : Bool :=
  match rlookup r k with
  | some _ => true
  | none => false

/-- Python dict assignment `ret[k] = v`: replaces the value in place when
the key exists (keeping its position), otherwise appends the new binding. -/
def dinsert : Rec → Str → RVal → Rec
  | .nil, k, v => .cons k v .nil
  | .cons k' v' r, k, v =>
      if k' = k then .cons k' v r else .cons k' v' (dinsert r k v)

mutual
/-- A pykeepass entry as the serializer sees it: `names` is the result of
the `dir()`-based attribute enumeration on line 108 (the public
non-callable attribute names), `atts` the attachment filenames,
`gp`/`pgp` the owning group's and its parent's path strings, `hist` the
historical snapshots, and `vals` gives the values `getattr` returns for
the remaining (non-special) attributes. -/
inductive Entry : Type where
  | mk (names : List Str) (atts : List Str) (gp : Str) (pgp : Str)
       (hist : EntryList) (vals : List (Str × PyVal))
/-- A list of entries (an entry's history). -/
inductive EntryList : Type where
  | nil
  | cons (e : Entry) (es : EntryList)
end

/-- The `dir()`-derived attribute-name list of an entry. -/
def entryAttrNames : Entry → List Str
  | .mk names _ _ _ _ _ => names

/-- The non-special attribute values of an entry. -/
def entryVals : Entry → List (Str × PyVal)
  | .mk _ _ _ _ _ vals => vals

/-- Models `getattr(entry, a)` for the non-special attributes: looks the
name up in the entry's value table (absent names, which cannot arise from
a `dir()`-derived name list, default to `None`). -/
def lookupVals : List (Str × PyVal) → Str → PyVal
  | [], _ => .pynone
  | (k, v) :: rest, a => if k = a then v else lookupVals rest a

/-- The final loop of `_entry_to_dict` (src/keepass.py line 124-125):
`for attr in attributes: ret[attr] = str(getattr(entry, attr))`. -/
def loopAttrs (r : Rec) (attrs : List Str) (vals : List (Str × PyVal)) : Rec :=
  match attrs with
  | [] => r
  | a :: rest => loopAttrs (dinsert r a (.text (pyStr (lookupVals vals a)))) rest vals

mutual
/-- Embedding of `LookupModule._entry_to_dict` (src/keepass.py lines
106-126).  The attribute list starts as the `dir()` enumeration; `password`
is removed first when `include_password` is false; the four special keys
are written and removed in source order (`attachments`, `group`,
`parentgroup`, then `history`, whose value is computed by recursion before
its `remove`); every remaining attribute is written as
`str(getattr(entry, attr))`.  Each `remove` raises `ValueError` when the
name is absent. -/
def entryToDict (ip : Bool) : Entry → Except Err Rec
  | .mk names atts gp pgp hist vals =>
      match (if ip = false then removeE names passwordKey else .ok names) with
      | .error e => .error e
      | .ok a1 =>
          match removeE a1 attachmentsKey with
          | .error e => .error e
          | .ok a2 =>
              match removeE a2 groupKey with
              | .error e => .error e
              | .ok a3 =>
                  match removeE a3 parentgroupKey with
                  | .error e => .error e
                  | .ok a4 =>
                      match historyToDicts ip hist with
                      | .error e => .error e
                      | .ok hrecs =>
                          match removeE a4 historyKey with
                          | .error e => .error e
                          | .ok a5 =>
                              .ok (loopAttrs
                                (dinsert
                                  (dinsert
                                    (dinsert
                                      (dinsert Rec.nil attachmentsKey (.textList atts))
                                      groupKey (.text gp))
                                    parentgroupKey (.text pgp))
                                  historyKey (.recList hrecs))
                                a5 vals)
/-- The list comprehension on line 120:
`[self._entry_to_dict(e, include_password) for e in entry.history]`;
a failure inside any element propagates. -/
def historyToDicts (ip : Bool) : EntryList → Except Err RecList
  | .nil => .ok .rnil
  | .cons e es =>
      match entryToDict ip e with
      | .error err => .error err
      | .ok r =>
          match historyToDicts ip es with
          | .error err => .error err
          | .ok rs => .ok (.rcons r rs)
end

/-- Whether a character of a pattern matches a character of the text:
`.` matches any character, anything else matches itself. -/
def charMatch (p c : Char) : Bool := p = '.' || p = c

/-- Fuel-bounded regex matching; see `rmatch`. -/
def rmatchF : Nat → Str → Str → Bool
  | 0, _, _ => false
  | fuel + 1, p, s =>
      match p, s with
      | [], [] => true
      | [], _ :: _ => false
      | p0 :: '*' :: ps, t =>
          rmatchF fuel ps t ||
            (match t with
             | [] => false
             | c :: t' => charMatch p0 c && rmatchF fuel (p0 :: '*' :: ps) t')
      | _ :: _, [] => false
      | p0 :: ps, c :: t' => charMatch p0 c && rmatchF fuel ps t'

/-- Modelled from the spec: full-string regular-expression matching as used
by the Database Handle's `find_groups`/`find_entries` with `regex=True`
("each segment is treated as a regular expression ... as a full-string
regex").  Covers the regex subset of literal characters, `.` and postfix
`*`.  The fuel argument of `rmatchF` only bounds the recursion; every
matching step strictly shrinks pattern-plus-text, so
`p.length + s.length + 1` steps always suffice. -/
def rmatch (p s : Str) : Bool := rmatchF (p.length + s.length + 1) p s

mutual
/-- A group node of the database tree: a name, the titled entries directly
in the group, and the child groups. -/
inductive GTree : Type where
  | mk (name : Str) (entries : TitledEntries) (children : GForest)
/-- The entries directly contained in a group, each with its title. -/
inductive TitledEntries : Type where
  | tnil
  | tcons (title : Str) (e : Entry) (rest : TitledEntries)
/-- A list of sibling groups. -/
inductive GForest : Type where
  | fnil
  | fcons (g : GTree) (gs : GForest)
end

/-- The simple name of a group. -/
def gname : GTree → Str
  | .mk n _ _ => n

/-- The titled entries directly in a group. -/
def gentries : GTree → TitledEntries
  | .mk _ es _ => es

/-- Converts a forest of sibling groups to a plain list. -/
def forestToList : GForest → List GTree
  | .fnil => []
  | .fcons g gs => g :: forestToList gs

/-- The direct child groups of a group, as a plain list. -/
def childList (g : GTree) : List GTree :=
  match g with
  | .mk _ _ cs => forestToList cs

/-- Modelled from the spec: the Database Handle's
`find_groups(name=name, group=parent, recursive=False, regex=True)` —
"find all direct child groups of the current candidate set whose name
matches the head segment as a full-string regex". -/
def filterMatch (namePat : Str) (parent : GTree) : List GTree :=
  (childList parent).filter (fun g => rmatch namePat (gname g))

/-- Whether a path string contains a `/` (the `'/' in path` tests of
src/keepass.py lines 92 and 135). -/
def containsSlash : Str → Bool
  | [] => false
  | c :: cs => c = '/' || containsSlash cs

/-- The recursive worker of `get_groups`.  The first argument accumulates
the characters of the current head segment; reaching a `/` corresponds to
`path.split('/', 1)` on src/keepass.py line 136 (the head accumulated so
far is `name`, the remainder is `subgroups`), and reaching the end of the
path corresponds to the no-slash branch on lines 138-139.  An empty
remainder after the slash is falsy in Python, so the `if subgroups:` guard
on line 147 stops the recursion. -/
def ggo (acc : Str) (path : Str) (parent : GTree) : List GTree :=
  match path with
  | [] => filterMatch acc parent
  | c :: cs =>
      if c = '/' then
        if cs = [] then filterMatch acc parent
        else filterMatch acc parent ++
          (filterMatch acc parent).flatMap (fun g => ggo [] cs g)
      else ggo (acc ++ [c]) cs parent

/-- Embedding of `LookupModule._get_groups` (src/keepass.py lines 128-151)
resolving a slash-delimited path expression from a parent group: split the
path at its first `/` into a head segment and a remainder, collect the
direct children whose name regex-matches the head (`ret.extend(groups)`,
line 144), and, when the remainder is nonempty, additionally recurse into
every matched child (`ret.extend(self._get_groups(subgroups, ...))`,
lines 147-149).  The caller in `run` always resolves from the root group,
which is the default parent on lines 131-133. -/
def get_groups (path : Str) (parent : GTree) : List GTree := ggo [] path parent

/-- Follows the spec's words for the Group Resolver ("if a tail remains,
recurse: for every group matched at this level, resolve the tail starting
from that group, and union all results; if no tail remains, the matched
groups at this level are the result"): only the groups matched at the full
segment depth are returned.  Stated per segment list; compare with
`get_groups`. -/
def fullDepthMatches : List Str → GTree → List GTree
  | [], parent => [parent]
  | s :: rest, parent => (filterMatch s parent).flatMap (fun g => fullDepthMatches rest g)

/-- The groups reachable from `parent` by following child links whose
names are literally the given segments; `groupsAtPath parent segs`
nonempty says a group exists at that slash-path below `parent`. -/
def groupsAtPath (parent : GTree) : List Str → List GTree
  | [] => [parent]
  | n :: rest =>
      ((childList parent).filter (fun c => gname c == n)).flatMap
        (fun c => groupsAtPath c rest)

/-- Joins path segments with `/`. -/
def joinSlash : List Str → Str
  | [] => []
  | [s] => s
  | s :: rest => s ++ '/' :: joinSlash rest

mutual
/-- All entries below a group together with their full path strings; `pref`
is the list of group names from the root down to (and including) this
group, the root group's own name being excluded from paths.  An entry's
path is its group-name chain followed by its title, joined with `/`
(spec: "Entry: ... has a path (parent group path + title)"). -/
def entriesWithPaths : GTree → List Str → List (Str × Entry)
  | .mk _ es cs, pref => titledWithPaths es pref ++ entriesWithPathsF cs pref
/-- Path-annotated entries of one group's direct entry list. -/
def titledWithPaths : TitledEntries → List Str → List (Str × Entry)
  | .tnil, _ => []
  | .tcons t e rest, pref => (joinSlash (pref ++ [t]), e) :: titledWithPaths rest pref
/-- Path-annotated entries of a forest of sibling subtrees. -/
def entriesWithPathsF : GForest → List Str → List (Str × Entry)
  | .fnil, _ => []
  | .fcons g gs, pref =>
      entriesWithPaths g (pref ++ [gname g]) ++ entriesWithPathsF gs pref
end

/-- Modelled from the spec: the Database Handle's `find_entries(path=term)`
used in exact mode — "look up the single entry whose path equals the
term", yielding `None` when no entry has that exact path. -/
def findEntryByPath (root : GTree) (term : Str) : Option Entry :=
  match (entriesWithPaths root []).find? (fun pe => pe.1 == term) with
  | some pe => some pe.2
  | none => none

/-- The entries of one group whose title regex-matches the pattern. -/
def titleFiltered : TitledEntries → Str → List Entry
  | .tnil, _ => []
  | .tcons t e rest, ttl =>
      if rmatch ttl t then e :: titleFiltered rest ttl
      else titleFiltered rest ttl

/-- Modelled from the spec: the Database Handle's
`find_entries(title=entry_title, group=group, regex=True)` — "within each
[candidate group], find entries whose title fully matches `title_pattern`
as a regex". -/
def findTitleEntries (g : GTree) : Str → List Entry := fun ttl =>
  titleFiltered (gentries g) ttl

/-- `term.rsplit('/', 1)` on src/keepass.py line 95: splits a term at its
LAST slash into the group-path part and the title part.  The `run` caller
only reaches this with a slash present; a slash-free input is returned
unchanged on the left. -/
def splitLastSlash : Str → Str × Str
  | [] => ([], [])
  | c :: rest =>
      if containsSlash rest then
        (c :: (splitLastSlash rest).1, (splitLastSlash rest).2)
      else if c = '/' then ([], rest)
      else (c :: rest, [])

/-- The matching entries of one term in regex mode (src/keepass.py lines
91-99): a slash-free term is a title pattern searched in the root group;
otherwise the part before the last slash is resolved by `get_groups` from
the root and the part after it is the title pattern, searched in every
candidate group in order. -/
def regexEntries (root : GTree) (term : Str) : List Entry :=
  if containsSlash term then
    (get_groups (splitLastSlash term).1 root).flatMap
      (fun g => findTitleEntries g (splitLastSlash term).2)
  else findTitleEntries root term

/-- Serializes a list of entries in order, stopping at the first failure —
the shape of the nested append loops on src/keepass.py lines 97-99 (an
exception from `_entry_to_dict` aborts the whole lookup). -/
def mapEntryToDicts (ip : Bool) : List Entry → Except Err (List Rec)
  | [] => .ok []
  | e :: es =>
      match entryToDict ip e with
      | .error err => .error err
      | .ok r =>
          match mapEntryToDicts ip es with
          | .error err => .error err
          | .ok rs => .ok (r :: rs)

/-- Processing of a single term inside the loop of `LookupModule.run`
(src/keepass.py lines 85-99).  In exact mode (`regex == False`) a missing
path executes `raise AnsibleLookupError(...)` on line 88 — but
`AnsibleLookupError` is not among the names imported from
`ansible.errors` on line 51, so evaluating it raises `NameError`.  In
regex mode the matching entries of the term are serialized and appended;
a term with zero matches contributes nothing and raises nothing. -/
def processTerm (root : GTree) (regex ip : Bool) (term : Str) : Except Err (List Rec) :=
  if regex = false then
    match findEntryByPath root term with
    | none => .error .nameError
    | some e =>
        match entryToDict ip e with
        | .error err => .error err
        | .ok r => .ok [r]
  else mapEntryToDicts ip (regexEntries root term)

/-- The term loop of `LookupModule.run` (src/keepass.py lines 84-99):
processes the terms in input order, appending each term's records to the
accumulated result; the first failure aborts the batch. -/
def runTerms (root : GTree) (regex ip : Bool) : List Str → Except Err (List Rec)
  | [] => .ok []
  | t :: rest =>
      match processTerm root regex ip t with
      | .error err => .error err
      | .ok rs =>
          match runTerms root regex ip rest with
          | .error err => .error err
          | .ok more => .ok (rs ++ more)

/-- Modelled from the spec: the outcome of opening the Database Handle
(`PyKeePass(kdbx_file, password=kdbx_password)`, src/keepass.py line 76) —
success with the group/entry tree, wrong master secret
(`CredentialsError`), or a header/payload checksum failure. -/
inductive OpenResult : Type where
  | success (root : GTree)
  | credentialsError
  | headerChecksumError
  | payloadChecksumError

/-- Embedding of `LookupModule.run` (src/keepass.py lines 63-104) given
the outcome of opening the database.  The `except CredentialsError:` and
`except (HeaderChecksumError, PayloadChecksumError):` clauses on lines
77-80 name exception classes that are never imported, so when the open
fails Python evaluates the first handler's undefined name and raises
`NameError` — the intended `AnsibleAuthenticationFailure` and
`AnsibleConnectionFailure` are unreachable.  On success the term loop
runs. -/
def runLookup (res : OpenResult) (regex ip : Bool) (terms : List Str) :
    Except Err (List Rec) :=
  match res with
  | .success root => runTerms root regex ip terms
  | .credentialsError => .error .nameError
  | .headerChecksumError => .error .nameError
  | .payloadChecksumError => .error .nameError

/-- The payload of a successful result (`Rec.nil` on failure); lets closed
statements name the record a concrete serialization produced. -/
def okRec : Except Err Rec → Rec
  | .ok r => r
  | .error _ => Rec.nil

/-- The number of aggregated records of a successful lookup. -/
def resultLen : Except Err (List Rec) → Option Nat
  | .ok l => some l.length
  | .error _ => none

/-- A node of a possibly-cyclic entry store: like `Entry`, but the history
is a list of store indices instead of structurally smaller entries, so a
snapshot can refer back to its own entry.  Used to examine the
serializer's behaviour on the cyclic history structures that the
inductive `Entry` cannot represent. -/
structure GEntry : Type where
  names : List Str
  atts : List Str
  gp : Str
  pgp : Str
  histIds : List Nat
  vals : List (Str × PyVal)

/-- Serializes each history index with the given serializer, stopping at
the first failure (the history list comprehension of line 120). -/
def histMapFuel (f : Nat → Except Err Rec) : List Nat → Except Err RecList
  | [] => .ok .rnil
  | i :: is =>
      match f i with
      | .error e => .error e
      | .ok r =>
          match histMapFuel f is with
          | .error e => .error e
          | .ok rs => .ok (.rcons r rs)

/-- `_entry_to_dict` run over a possibly-cyclic store: step for step the
computation of `entryToDict`, except that the history recursion follows
store indices and each nested call consumes one unit of fuel — the model
of CPython's bounded call stack, `Err.recursionError` being the
interpreter's `RecursionError` when the recursion limit is exhausted.
The source has no depth limit or cycle check of its own. -/
def entryToDictFuel (store : Nat → GEntry) (ip : Bool) : Nat → Nat → Except Err Rec
  | 0, _ => .error .recursionError
  | fuel + 1, i =>
      match (if ip = false then removeE (store i).names passwordKey
             else .ok (store i).names) with
      | .error e => .error e
      | .ok a1 =>
          match removeE a1 attachmentsKey with
          | .error e => .error e
          | .ok a2 =>
              match removeE a2 groupKey with
              | .error e => .error e
              | .ok a3 =>
                  match removeE a3 parentgroupKey with
                  | .error e => .error e
                  | .ok a4 =>
                      match histMapFuel (entryToDictFuel store ip fuel) (store i).histIds with
                      | .error e => .error e
                      | .ok hrecs =>
                          match removeE a4 historyKey with
                          | .error e => .error e
                          | .ok a5 =>
                              .ok (loopAttrs
                                (dinsert
                                  (dinsert
                                    (dinsert
                                      (dinsert Rec.nil attachmentsKey (.textList (store i).atts))
                                      groupKey (.text (store i).gp))
                                    parentgroupKey (.text (store i).pgp))
                                  historyKey (.recList hrecs))
                                a5 (store i).vals)

/-- A store holding a single entry whose history contains the entry
itself — the synthetic cyclic history fixture. -/
def cycStore : Nat → GEntry := fun _ =>
  { names := [attachmentsKey, groupKey, historyKey, parentgroupKey, passwordKey]
    atts := []
    gp := "/".toList
    pgp := "/".toList
    histIds := [0]
    vals := [] }

/-- A historical snapshot of the entry `db1` (an older password). -/
def entryDb1Old : Entry := .mk
  [attachmentsKey, groupKey, historyKey, "notes".toList, parentgroupKey,
   passwordKey, "title".toList, "username".toList]
  []
  "Servers".toList "/".toList .nil
  [("notes".toList, .pynone), (passwordKey, .text "oldsecret".toList),
   ("title".toList, .text "db1".toList), ("username".toList, .text "admin".toList)]

/-- The entry of the spec's test scenario: `db1` in group `Servers`, with
username `admin`, password `secret`, one attachment `key.pem` and one
historical snapshot.  Its attribute-name list is what `dir()` enumerates,
in sorted order. -/
def entryDb1 : Entry := .mk
  [attachmentsKey, groupKey, historyKey, "notes".toList, parentgroupKey,
   passwordKey, "title".toList, "username".toList]
  ["key.pem".toList]
  "Servers".toList "/".toList (.cons entryDb1Old .nil)
  [("notes".toList, .pynone), (passwordKey, .text "secret".toList),
   ("title".toList, .text "db1".toList), ("username".toList, .text "admin".toList)]

/-- A second entry `db2` in the same group, used to exercise a regex term
with several matches. -/
def entryDb2 : Entry := .mk
  [attachmentsKey, groupKey, historyKey, "notes".toList, parentgroupKey,
   passwordKey, "title".toList, "username".toList]
  []
  "Servers".toList "/".toList .nil
  [("notes".toList, .pynone), (passwordKey, .text "hunter2".toList),
   ("title".toList, .text "db2".toList), ("username".toList, .text "root".toList)]

/-- The `Servers` group holding `db1` and `db2`. -/
def serversGroup : GTree := .mk "Servers".toList
  (.tcons "db1".toList entryDb1 (.tcons "db2".toList entryDb2 .tnil)) .fnil

/-- The scenario database: a root group with the single subgroup
`Servers`. -/
def dbScenario : GTree := .mk "Root".toList .tnil (.fcons serversGroup .fnil)

/-- Leaf group `B` of the two-level resolver fixture. -/
def groupB : GTree := .mk "B".toList .tnil .fnil

/-- Group `A` with child `B`. -/
def groupA : GTree := .mk "A".toList .tnil (.fcons groupB .fnil)

/-- A root whose only child is `A` (which contains `B`). -/
def rootAB : GTree := .mk "Root".toList .tnil (.fcons groupA .fnil)

/-- A group whose name `a*` is a regex that does not match itself. -/
def groupStar : GTree := .mk "a*".toList .tnil .fnil

/-- A root whose only child is the group named `a*`. -/
def rootStar : GTree := .mk "Root".toList .tnil (.fcons groupStar .fnil)

/-- An entry with a boolean-valued attribute `autotype_enabled` and a
`None`-valued attribute `notes`, used to examine how non-text attribute
values are serialized. -/
def eC3 : Entry := .mk
  [attachmentsKey, "autotype_enabled".toList, groupKey, historyKey,
   "notes".toList, parentgroupKey]
  []
  "Servers".toList "/".toList .nil
  [("autotype_enabled".toList, .bool true), ("notes".toList, .pynone)]

mutual
/-- Whether a record value is recursively free of the `password` key. -/
def rvalNoPwd : RVal → Bool
  | .text _ => true
  | .bool _ => true
  | .textList _ => true
  | .recList rs => recsNoPwd rs
/-- Whether every record of a list is recursively `password`-free. -/
def recsNoPwd : RecList → Bool
  | .rnil => true
  | .rcons r rs => recNoPwd r && recsNoPwd rs
/-- Whether a record has no `password` key, recursively including every
record inside its values (in particular its `history` records). -/
def recNoPwd : Rec → Bool
  | .nil => true
  | .cons k v r => !(k == passwordKey) && rvalNoPwd v && recNoPwd r
end

mutual
/-- An entry whose `dir()`-derived name list can come from a Python
object: `dir()` returns each attribute name at most once, so `password`
occurs at most once, recursively so in the history. -/
def entryGood : Entry → Bool
  | .mk names _ _ _ hist _ =>
      decide (names.count passwordKey ≤ 1) && entryListGood hist
/-- `entryGood` for every entry of a history list. -/
def entryListGood : EntryList → Bool
  | .nil => true
  | .cons e es => entryGood e && entryListGood es
end

theorem removeE_eq (l : List Str) (a : Str) :
    removeE l a = if a ∈ l then .ok (l.erase a) else .error .valueError := by
  induction l with
  | nil => simp [removeE]
  | cons x xs ih =>
      by_cases hx : x = a
      · subst hx
        simp [removeE, List.erase_cons_head]
      · have hbeq : (x == a) = false := beq_eq_false_iff_ne.mpr hx
        by_cases ha : a ∈ xs
        · simp [removeE, hx, ih, ha, List.erase_cons_tail, hbeq,
            List.mem_cons, Ne.symm hx]
        · simp [removeE, hx, ih, ha, List.mem_cons, Ne.symm hx]

/-- List-style induction for `Rec` alone: the record operations below never
recurse into the stored values, so the value motive is trivial. -/
theorem recInd {motive : Rec → Prop} (hnil : motive .nil)
    (hcons : ∀ k v r, motive r → motive (.cons k v r)) : ∀ r, motive r :=
  fun r =>
    @Rec.rec (fun _ => True) motive (fun _ => True)
      (fun _ => trivial) (fun _ => trivial) (fun _ => trivial)
      (fun _ _ => trivial)
      hnil
      (fun k v r _ hr => hcons k v r hr)
      trivial
      (fun _ _ _ _ => trivial)
      r

theorem rlookup_dinsert (r : Rec) (k q : Str) (v : RVal) :
    rlookup (dinsert r k v) q = if q = k then some v else rlookup r q := by
  induction r using recInd with
  | hnil =>
      by_cases h : q = k
      · subst h
        simp [dinsert, rlookup]
      · simp [dinsert, rlookup, h, Ne.symm h]
  | hcons k' v' r ih =>
      by_cases hk : k' = k
      · subst hk
        by_cases h : q = k'
        · subst h
          simp [dinsert, rlookup]
        · simp [dinsert, rlookup, h, Ne.symm h]
      · by_cases h : q = k'
        · subst h
          simp [dinsert, rlookup, hk]
        · simp [dinsert, rlookup, hk, h, Ne.symm h, ih]

theorem recNoPwd_dinsert {r : Rec} {k : Str} {v : RVal}
    (hr : recNoPwd r = true) (hk : k ≠ passwordKey) (hv : rvalNoPwd v = true) :
    recNoPwd (dinsert r k v) = true := by
  induction r using recInd with
  | hnil => simp [dinsert, recNoPwd, hv, hk]
  | hcons k' v' r ih =>
      simp only [recNoPwd, Bool.and_eq_true, Bool.not_eq_true'] at hr
      by_cases hk' : k' = k
      · subst hk'
        simp [dinsert, recNoPwd, hr.1.1, hr.2, hv]
      · simp [dinsert, recNoPwd, hk', hr.1.1, hr.1.2, ih hr.2]

theorem recNoPwd_loopAttrs {r : Rec} {attrs : List Str}
    {vals : List (Str × PyVal)} (hr : recNoPwd r = true)
    (ha : ∀ a ∈ attrs, a ≠ passwordKey) :
    recNoPwd (loopAttrs r attrs vals) = true := by
  induction attrs generalizing r with
  | nil => simpa [loopAttrs] using hr
  | cons a rest ih =>
      simp only [loopAttrs]
      exact ih
        (recNoPwd_dinsert hr (ha a (List.mem_cons_self a rest)) rfl)
        (fun b hb => ha b (List.mem_cons_of_mem a hb))

theorem hasKey_loopAttrs {r : Rec} {attrs : List Str}
    {vals : List (Str × PyVal)} {a : Str}
    (h : a ∈ attrs ∨ hasKey r a = true) :
    hasKey (loopAttrs r attrs vals) a = true := by
  induction attrs generalizing r with
  | nil =>
      rcases h with h | h
      · cases h
      · simpa [loopAttrs] using h
  | cons b rest ih =>
      simp only [loopAttrs]
      rcases h with h | h
      · rcases List.mem_cons.mp h with h | h
        · subst h
          exact ih (Or.inr (by simp [hasKey, rlookup_dinsert]))
        · exact ih (Or.inl h)
      · refine ih (Or.inr ?_)
        simp only [hasKey, rlookup_dinsert]
        by_cases hab : a = b
        · simp [hab]
        · simpa [hab, hasKey] using h

theorem rlookup_loopAttrs (r : Rec) (attrs : List Str)
    (vals : List (Str × PyVal)) (a : Str) :
    rlookup (loopAttrs r attrs vals) a =
      if a ∈ attrs then some (.text (pyStr (lookupVals vals a)))
      else rlookup r a := by
  induction attrs generalizing r with
  | nil => simp [loopAttrs]
  | cons b rest ih =>
      simp only [loopAttrs, ih, rlookup_dinsert]
      by_cases hmem : a ∈ rest
      · simp [hmem, List.mem_cons]
      · by_cases hab : a = b
        · subst hab
          simp [hmem, List.mem_cons]
        · simp [hmem, hab, List.mem_cons]

theorem entryToDict_ok_elim {ip : Bool} {names atts : List Str} {gp pgp : Str}
    {hist : EntryList} {vals : List (Str × PyVal)} {r : Rec}
    (h : entryToDict ip (.mk names atts gp pgp hist vals) = .ok r) :
    ∃ a1 a2 a3 a4 a5 hrecs,
      (if ip = false then removeE names passwordKey else .ok names) = .ok a1 ∧
      removeE a1 attachmentsKey = .ok a2 ∧
      removeE a2 groupKey = .ok a3 ∧
      removeE a3 parentgroupKey = .ok a4 ∧
      historyToDicts ip hist = .ok hrecs ∧
      removeE a4 historyKey = .ok a5 ∧
      r = loopAttrs (dinsert (dinsert (dinsert (dinsert Rec.nil attachmentsKey
            (.textList atts)) groupKey (.text gp)) parentgroupKey (.text pgp))
            historyKey (.recList hrecs)) a5 vals := by
  simp only [entryToDict] at h
  split at h
  · simp at h
  next a1 h1 =>
  split at h
  · simp at h
  next a2 h2 =>
  split at h
  · simp at h
  next a3 h3 =>
  split at h
  · simp at h
  next a4 h4 =>
  split at h
  · simp at h
  next hrecs h5 =>
  split at h
  · simp at h
  next a5 h6 =>
  exact ⟨a1, a2, a3, a4, a5, hrecs, h1, h2, h3, h4, h5, h6, (Except.ok.inj h).symm⟩

theorem removeE_ok_mem_and_eq {l l' : List Str} {a : Str}
    (h : removeE l a = .ok l') : a ∈ l ∧ l' = l.erase a := by
  rw [removeE_eq] at h
  split at h
  · exact ⟨by assumption, (Except.ok.inj h).symm⟩
  · simp at h

mutual
theorem entryToDict_noPwd : ∀ (e : Entry), entryGood e = true →
    ∀ r, entryToDict false e = .ok r → recNoPwd r = true
  | .mk names atts gp pgp hist vals, hg, r, h => by
      simp only [entryGood, Bool.and_eq_true, decide_eq_true_eq] at hg
      obtain ⟨a1, a2, a3, a4, a5, hrecs, h1, h2, h3, h4, h5, h6, hr⟩ :=
        entryToDict_ok_elim h
      rw [if_pos rfl] at h1
      obtain ⟨hp1, he1⟩ := removeE_ok_mem_and_eq h1
      obtain ⟨-, he2⟩ := removeE_ok_mem_and_eq h2
      obtain ⟨-, he3⟩ := removeE_ok_mem_and_eq h3
      obtain ⟨-, he4⟩ := removeE_ok_mem_and_eq h4
      obtain ⟨-, he5⟩ := removeE_ok_mem_and_eq h6
      have hpwd1 : passwordKey ∉ a1 := by
        subst he1
        refine List.count_eq_zero.mp ?_
        have hcount : 0 < names.count passwordKey := by
          exact List.count_pos_iff.mpr hp1
        have := List.count_erase_self passwordKey names
        omega
      have hsub : a5 ⊆ a1 := by
        subst he2 he3 he4 he5
        intro x hx
        exact List.erase_subset _ _ (List.erase_subset _ _
          (List.erase_subset _ _ (List.erase_subset _ _ hx)))
      have hrecsNoPwd : recsNoPwd hrecs = true :=
        historyToDicts_noPwd hist hg.2 hrecs h5
      subst hr
      refine recNoPwd_loopAttrs ?_ ?_
      · refine recNoPwd_dinsert (recNoPwd_dinsert (recNoPwd_dinsert
          (recNoPwd_dinsert rfl ?_ rfl) ?_ rfl) ?_ rfl) ?_ ?_
        · decide
        · decide
        · decide
        · decide
        · simpa [rvalNoPwd] using hrecsNoPwd
      · intro a ha hcontra
        subst hcontra
        exact hpwd1 (hsub ha)
theorem historyToDicts_noPwd : ∀ (es : EntryList), entryListGood es = true →
    ∀ rs, historyToDicts false es = .ok rs → recsNoPwd rs = true
  | .nil, _, rs, h => by
      simp only [historyToDicts] at h
      obtain rfl := Except.ok.inj h
      rfl
  | .cons e es, hg, rs, h => by
      simp only [entryListGood, Bool.and_eq_true] at hg
      simp only [historyToDicts] at h
      split at h
      · simp at h
      next r0 hr0 =>
      split at h
      · simp at h
      next rs0 hrs0 =>
      obtain rfl := Except.ok.inj h
      simp only [recsNoPwd, Bool.and_eq_true]
      exact ⟨entryToDict_noPwd e hg.1 r0 hr0, historyToDicts_noPwd es hg.2 rs0 hrs0⟩
end

theorem entryToDict_pwd_present {names atts : List Str} {gp pgp : Str}
    {hist : EntryList} {vals : List (Str × PyVal)} {r : Rec}
    (hmem : passwordKey ∈ names)
    (h : entryToDict true (.mk names atts gp pgp hist vals) = .ok r) :
    hasKey r passwordKey = true := by
  obtain ⟨a1, a2, a3, a4, a5, hrecs, h1, h2, h3, h4, h5, h6, hr⟩ :=
    entryToDict_ok_elim h
  rw [if_neg (by simp)] at h1
  obtain rfl := Except.ok.inj h1
  obtain ⟨-, he2⟩ := removeE_ok_mem_and_eq h2
  obtain ⟨-, he3⟩ := removeE_ok_mem_and_eq h3
  obtain ⟨-, he4⟩ := removeE_ok_mem_and_eq h4
  obtain ⟨-, he5⟩ := removeE_ok_mem_and_eq h6
  have hp5 : passwordKey ∈ a5 := by
    subst he2 he3 he4 he5
    exact (List.mem_erase_of_ne (by decide)).mpr
      ((List.mem_erase_of_ne (by decide)).mpr
        ((List.mem_erase_of_ne (by decide)).mpr
          ((List.mem_erase_of_ne (by decide)).mpr hmem)))
  subst hr
  exact hasKey_loopAttrs (Or.inl hp5)

theorem removeE_error_val {l : List Str} {a : Str} {e : Err}
    (h : removeE l a = .error e) : e = .valueError := by
  rw [removeE_eq] at h
  split at h
  · simp at h
  · exact (Except.error.inj h).symm

mutual
theorem entryToDict_ok_or_valueError : ∀ (ip : Bool) (e : Entry),
    (∃ r, entryToDict ip e = .ok r) ∨ entryToDict ip e = .error .valueError
  | ip, .mk names atts gp pgp hist vals => by
      rcases h1 : (if ip = false then removeE names passwordKey else .ok names) with
        e1 | a1
      · have he1 : e1 = Err.valueError := by
          cases ip
          · rw [if_pos rfl] at h1
            exact removeE_error_val h1
          · rw [if_neg (by simp)] at h1
            simp at h1
        subst he1
        exact Or.inr (by simp only [entryToDict, h1])
      · rcases h2 : removeE a1 attachmentsKey with e2 | a2
        · have he2 := removeE_error_val h2
          subst he2
          exact Or.inr (by simp only [entryToDict, h1, h2])
        · rcases h3 : removeE a2 groupKey with e3 | a3
          · have he3 := removeE_error_val h3
            subst he3
            exact Or.inr (by simp only [entryToDict, h1, h2, h3])
          · rcases h4 : removeE a3 parentgroupKey with e4 | a4
            · have he4 := removeE_error_val h4
              subst he4
              exact Or.inr (by simp only [entryToDict, h1, h2, h3, h4])
            · rcases historyToDicts_ok_or_valueError ip hist with ⟨rs, hrs⟩ | hrs
              · rcases h6 : removeE a4 historyKey with e6 | a6
                · have he6 := removeE_error_val h6
                  subst he6
                  exact Or.inr (by simp only [entryToDict, h1, h2, h3, h4, hrs, h6])
                · exact Or.inl ⟨loopAttrs (dinsert (dinsert (dinsert (dinsert
                    Rec.nil attachmentsKey (.textList atts)) groupKey (.text gp))
                    parentgroupKey (.text pgp)) historyKey (.recList rs)) a6 vals,
                    by simp only [entryToDict, h1, h2, h3, h4, hrs, h6]⟩
              · exact Or.inr (by simp only [entryToDict, h1, h2, h3, h4, hrs])
theorem historyToDicts_ok_or_valueError : ∀ (ip : Bool) (es : EntryList),
    (∃ rs, historyToDicts ip es = .ok rs) ∨ historyToDicts ip es = .error .valueError
  | _, .nil => Or.inl ⟨.rnil, rfl⟩
  | ip, .cons e es => by
      rcases entryToDict_ok_or_valueError ip e with ⟨r0, hr0⟩ | hr0
      · rcases historyToDicts_ok_or_valueError ip es with ⟨rs0, hrs0⟩ | hrs0
        · exact Or.inl ⟨.rcons r0 rs0, by simp only [historyToDicts, hr0, hrs0]⟩
        · exact Or.inr (by simp only [historyToDicts, hr0, hrs0])
      · exact Or.inr (by simp only [historyToDicts, hr0])
end

theorem entryToDict_ok_names {ip : Bool} {names atts : List Str} {gp pgp : Str}
    {hist : EntryList} {vals : List (Str × PyVal)} {r : Rec}
    (h : entryToDict ip (.mk names atts gp pgp hist vals) = .ok r) :
    attachmentsKey ∈ names ∧ groupKey ∈ names ∧ parentgroupKey ∈ names ∧
    historyKey ∈ names ∧ (ip = false → passwordKey ∈ names) := by
  obtain ⟨a1, a2, a3, a4, a5, hrecs, h1, h2, h3, h4, h5, h6, -⟩ :=
    entryToDict_ok_elim h
  have ha1 : a1 ⊆ names ∧ (ip = false → passwordKey ∈ names) := by
    by_cases hip : ip = false
    · rw [if_pos hip] at h1
      obtain ⟨hpwd, he⟩ := removeE_ok_mem_and_eq h1
      subst he
      exact ⟨List.erase_subset _ _, fun _ => hpwd⟩
    · rw [if_neg hip] at h1
      obtain rfl := Except.ok.inj h1
      exact ⟨fun x hx => hx, fun hf => absurd hf hip⟩
  obtain ⟨hatt2, he2⟩ := removeE_ok_mem_and_eq h2
  obtain ⟨hg3, he3⟩ := removeE_ok_mem_and_eq h3
  obtain ⟨hp4, he4⟩ := removeE_ok_mem_and_eq h4
  obtain ⟨hh5, he5⟩ := removeE_ok_mem_and_eq h6
  subst he2 he3 he4
  exact ⟨ha1.1 hatt2, ha1.1 (List.erase_subset _ _ hg3),
    ha1.1 (List.erase_subset _ _ (List.erase_subset _ _ hp4)),
    ha1.1 (List.erase_subset _ _ (List.erase_subset _ _ (List.erase_subset _ _ hh5))),
    ha1.2⟩

/-- Claim C10: serialization has an implicit precondition on the entry's
attribute set — it succeeds only when the `dir()`-derived attribute names
include `attachments`, `group`, `parentgroup`, `history` and (when
`include_password` is false) `password`; when one of these is missing the
serializer raises `ValueError` (from `list.remove` on a name absent from
the attribute list) instead of producing a record. -/
theorem c10_required_attributes (ip : Bool) (names atts : List Str)
    (gp pgp : Str) (hist : EntryList) (vals : List (Str × PyVal)) :
    (∀ r, entryToDict ip (.mk names atts gp pgp hist vals) = .ok r →
        attachmentsKey ∈ names ∧ groupKey ∈ names ∧ parentgroupKey ∈ names ∧
        historyKey ∈ names ∧ (ip = false → passwordKey ∈ names)) ∧
    ((attachmentsKey ∉ names ∨ groupKey ∉ names ∨ parentgroupKey ∉ names ∨
        historyKey ∉ names ∨ (ip = false ∧ passwordKey ∉ names)) →
      entryToDict ip (.mk names atts gp pgp hist vals) = .error .valueError) := by
  constructor
  · intro r h
    exact entryToDict_ok_names h
  · intro hmiss
    rcases entryToDict_ok_or_valueError ip (.mk names atts gp pgp hist vals) with
      ⟨r, hr⟩ | herr
    · obtain ⟨m1, m2, m3, m4, m5⟩ := entryToDict_ok_names hr
      rcases hmiss with hm | hm | hm | hm | ⟨hip, hm⟩
      · exact absurd m1 hm
      · exact absurd m2 hm
      · exact absurd m3 hm
      · exact absurd m4 hm
      · exact absurd (m5 hip) hm
    · exact herr

/-- Witness for C10 at a concrete input: an entry whose attribute names
lack `history` is serialized to a `ValueError`. -/
theorem c10_witness :
    entryToDict false (.mk [attachmentsKey, groupKey, parentgroupKey, passwordKey]
      [] [] [] .nil []) = .error .valueError :=
  (c10_required_attributes false [attachmentsKey, groupKey, parentgroupKey, passwordKey]
    [] [] [] .nil []).2 (Or.inr (Or.inr (Or.inr (Or.inl (by decide)))))

/-- Claim C5: for every entry with a well-formed (`dir()`-producible)
attribute-name list, serializing with `include_password = False` yields a
record with no `password` key, recursively including every record of its
`history` list (`recNoPwd` checks all nested records); serializing with
`include_password = True` yields a record with a `password` key whenever
the entry's attribute set defines one. -/
theorem c5_password_handling (e : Entry) (hg : entryGood e = true) :
    (∀ r, entryToDict false e = .ok r → recNoPwd r = true) ∧
    (passwordKey ∈ entryAttrNames e →
      ∀ r, entryToDict true e = .ok r → hasKey r passwordKey = true) := by
  refine ⟨entryToDict_noPwd e hg, ?_⟩
  intro hmem r h
  cases e with
  | mk names atts gp pgp hist vals => exact entryToDict_pwd_present hmem h

/-- Witness for C5 at the scenario entry `db1` (which carries a history
snapshot and defines a password). -/
theorem c5_witness :
    entryGood entryDb1 = true ∧
    ((∀ r, entryToDict false entryDb1 = .ok r → recNoPwd r = true) ∧
      (passwordKey ∈ entryAttrNames entryDb1 →
        ∀ r, entryToDict true entryDb1 = .ok r → hasKey r passwordKey = true)) :=
  ⟨by decide, c5_password_handling entryDb1 (by decide)⟩

/-- Claim C3 is false on the code at a concrete input: the boolean-valued
attribute `autotype_enabled` is serialized as the text `"True"`, not
passed through as a native boolean, and the `None`-valued attribute
`notes` is rendered as the text `"None"`, not as empty text. -/
theorem c3_counterexample :
    entryToDict true eC3 = .ok (okRec (entryToDict true eC3)) ∧
    rlookup (okRec (entryToDict true eC3)) "autotype_enabled".toList
      = some (.text "True".toList) ∧
    some (RVal.text "True".toList) ≠ some (RVal.bool true) ∧
    rlookup (okRec (entryToDict true eC3)) "notes".toList
      = some (.text "None".toList) ∧
    ("None".toList : Str) ≠ [] :=
  ⟨rfl, rfl, by simp, rfl, by decide⟩

/-- Claim C3 (amended): every attribute other than the special-cased ones
(`attachments`, `group`, `parentgroup`, `history`) is written as the text
representation `str(getattr(entry, attr))` regardless of the value's
type — no text/boolean/mapping/list value is passed through natively, and
a `None` value renders as the text `"None"`. -/
theorem c3_text_conversion (e : Entry) (ip : Bool) (r : Rec) (a : Str) (v : RVal)
    (hok : entryToDict ip e = .ok r)
    (h1 : a ≠ attachmentsKey) (h2 : a ≠ groupKey) (h3 : a ≠ parentgroupKey)
    (h4 : a ≠ historyKey) (hl : rlookup r a = some v) :
    v = .text (pyStr (lookupVals (entryVals e) a)) := by
  cases e with
  | mk names atts gp pgp hist vals =>
      obtain ⟨a1, a2, a3, a4, a5, hrecs, hh1, hh2, hh3, hh4, hh5, hh6, hr⟩ :=
        entryToDict_ok_elim hok
      subst hr
      rw [rlookup_loopAttrs] at hl
      by_cases hmem : a ∈ a5
      · rw [if_pos hmem] at hl
        obtain rfl := Option.some.inj hl
        rfl
      · rw [if_neg hmem] at hl
        simp [rlookup_dinsert, rlookup, Ne.symm h1, Ne.symm h2, Ne.symm h3,
          Ne.symm h4] at hl

/-- Witness for the amended C3 at the concrete entry `eC3`. -/
theorem c3_witness :
    RVal.text "True".toList =
      .text (pyStr (lookupVals (entryVals eC3) "autotype_enabled".toList)) :=
  c3_text_conversion eC3 true (okRec (entryToDict true eC3))
    "autotype_enabled".toList (.text "True".toList) rfl
    (by decide) (by decide) (by decide) (by decide) rfl

/-- Claim C1 is false on the code at a concrete input: in regex mode the
term `Servers/zzz` matches no entry, yet the lookup does not fail with any
error — it returns successfully with no contribution for the term. -/
theorem c1_counterexample :
    runLookup (.success dbScenario) true false ["Servers/zzz".toList] = .ok [] := rfl

/-- Claim C1 (amended): in regex mode a term with zero matching entries
across all candidate groups is silently skipped — it contributes no
records and raises nothing, and the batch continues with the remaining
terms.  (Only exact mode attempts to raise on a missing entry, and that
raise itself produces a `NameError` because `AnsibleLookupError` is not
imported.) -/
theorem c1_regex_zero_match_skipped (root : GTree) (ip : Bool) (t : Str)
    (rest : List Str) (h : regexEntries root t = []) :
    runTerms root true ip (t :: rest) = runTerms root true ip rest := by
  cases hr : runTerms root true ip rest <;>
    simp [runTerms, processTerm, h, mapEntryToDicts, hr]

/-- Witness for the amended C1: skipping the zero-match term
`Servers/zzz` leaves the batch result unchanged. -/
theorem c1_witness :
    regexEntries dbScenario "Servers/zzz".toList = [] ∧
    runTerms dbScenario true false ["Servers/zzz".toList, "Servers/db1".toList] =
      runTerms dbScenario true false ["Servers/db1".toList] :=
  ⟨rfl, c1_regex_zero_match_skipped dbScenario false "Servers/zzz".toList
    ["Servers/db1".toList] rfl⟩

theorem mapEntryToDicts_append (ip : Bool) (l1 l2 : List Entry) :
    mapEntryToDicts ip (l1 ++ l2) =
      match mapEntryToDicts ip l1 with
      | .error e => .error e
      | .ok r1 =>
          match mapEntryToDicts ip l2 with
          | .error e => .error e
          | .ok r2 => .ok (r1 ++ r2) := by
  induction l1 with
  | nil =>
      cases h2 : mapEntryToDicts ip l2 <;> simp [mapEntryToDicts, h2]
  | cons e es ih =>
      simp only [List.cons_append, mapEntryToDicts, ih]
      cases he : entryToDict ip e <;>
        cases hes : mapEntryToDicts ip es <;>
          cases h2 : mapEntryToDicts ip l2 <;>
            simp [he, hes, h2, ih]

/-- Claim C4 is false on the code at a concrete input: the single regex
term `Servers/db.*` yields two aggregated elements (one per matching
entry, each a single record), so the output does not have exactly one
element per input term and no per-term element is a list of records. -/
theorem c4_counterexample :
    resultLen (runLookup (.success dbScenario) true false ["Servers/db.*".toList])
      = some 2 ∧
    (["Servers/db.*".toList] : List Str).length = 1 ∧ (2 : Nat) ≠ 1 :=
  ⟨rfl, rfl, by decide⟩

/-- Claim C4 (amended): in regex mode the aggregated result is flat — one
record per matching entry, concatenated over the terms in input order (a
term may contribute zero or several records); in exact mode each
successful term contributes exactly one record. -/
theorem c4_flat_aggregation (root : GTree) (ip : Bool) (terms : List Str) :
    runTerms root true ip terms =
      mapEntryToDicts ip (terms.flatMap (fun t => regexEntries root t)) ∧
    (∀ l, runTerms root false ip terms = .ok l → l.length = terms.length) := by
  constructor
  · induction terms with
    | nil => rfl
    | cons t rest ih =>
        simp only [List.flatMap_cons, mapEntryToDicts_append, runTerms, processTerm, ih]
        cases h1 : mapEntryToDicts ip (regexEntries root t) <;>
          cases h2 : mapEntryToDicts ip (rest.flatMap (fun t => regexEntries root t)) <;>
            simp [h1, h2]
  · induction terms with
    | nil =>
        intro l h
        obtain rfl := (Except.ok.inj h).symm
        rfl
    | cons t rest ih =>
        intro l h
        simp only [runTerms] at h
        split at h
        · simp at h
        next rs hrs =>
        split at h
        · simp at h
        next more hmore =>
        obtain rfl := (Except.ok.inj h).symm
        have hstep : processTerm root false ip t =
            (match findEntryByPath root t with
             | none => (.error .nameError : Except Err (List Rec))
             | some e =>
                 match entryToDict ip e with
                 | .error err => .error err
                 | .ok r => .ok [r]) := rfl
        rw [hstep] at hrs
        have hrs1 : rs.length = 1 := by
          split at hrs
          · simp at hrs
          · split at hrs
            · simp at hrs
            · obtain rfl := (Except.ok.inj hrs).symm
              rfl
        simp [hrs1, ih more hmore, Nat.add_comm]

/-- Witness for the amended C4 at concrete terms on the scenario store. -/
theorem c4_witness :
    (runTerms dbScenario true false ["Servers/db.*".toList] =
      mapEntryToDicts false (["Servers/db.*".toList].flatMap
        (fun t => regexEntries dbScenario t)) ∧
    (∀ l, runTerms dbScenario false false ["Servers/db.*".toList] = .ok l →
      l.length = (["Servers/db.*".toList] : List Str).length)) :=
  c4_flat_aggregation dbScenario false ["Servers/db.*".toList]

/-- Claim C7: the intended mapping of open failures.  The code's `except`
clauses evaluate the unimported names `CredentialsError`,
`HeaderChecksumError` and `PayloadChecksumError`, so every open failure
surfaces as a `NameError` rather than the intended
`AnsibleAuthenticationFailure`/`AnsibleConnectionFailure`; a successful
open raises nothing. -/
theorem c7_open_failure_mapping :
    runLookup .credentialsError false false [] = .error .nameError ∧
    runLookup .headerChecksumError false false [] = .error .nameError ∧
    runLookup .payloadChecksumError false false [] = .error .nameError ∧
    Err.nameError ≠ Err.ansibleAuthenticationFailure ∧
    Err.nameError ≠ Err.ansibleConnectionFailure ∧
    runLookup (.success dbScenario) false false [] = .ok [] :=
  ⟨rfl, rfl, rfl, by decide, by decide, rfl⟩

/-- Claim C8: exact mode at concrete inputs.  Looking up the literal path
`Servers/db1` returns exactly that entry's record; looking up the
non-existent path `Servers/nope` fails — but with a `NameError` (the
`raise AnsibleLookupError(...)` on line 88 names an identifier that is
never imported), not with a NotFoundError-kind failure. -/
theorem c8_exact_mode :
    findEntryByPath dbScenario "Servers/db1".toList = some entryDb1 ∧
    runLookup (.success dbScenario) false false ["Servers/db1".toList] =
      mapEntryToDicts false [entryDb1] ∧
    findEntryByPath dbScenario "Servers/nope".toList = none ∧
    runLookup (.success dbScenario) false false ["Servers/nope".toList] =
      .error .nameError :=
  ⟨rfl, rfl, rfl, rfl⟩

theorem histMapFuel_single_error (f : Nat → Except Err Rec) (i : Nat) (e : Err)
    (h : f i = .error e) : histMapFuel f [i] = .error e := by
  simp [histMapFuel, h]

/-- Claim C6: on the synthetic cyclic history fixture (an entry whose
history contains itself) the serializer exhausts every recursion budget
and surfaces the host's `RecursionError`; it has no depth limit or cycle
check of its own and never raises an IntegrityError-kind failure (the
embedding's error type has no such constructor because no line of the
source can produce one). -/
theorem c6_cyclic_history : ∀ n : Nat,
    entryToDictFuel cycStore false n 0 = .error .recursionError
  | 0 => rfl
  | n + 1 => by
      have ih := c6_cyclic_history n
      have hs := histMapFuel_single_error (entryToDictFuel cycStore false n) 0 _ ih
      have r1 : removeE (cycStore 0).names passwordKey =
          .ok [attachmentsKey, groupKey, historyKey, parentgroupKey] := rfl
      have r2 : removeE [attachmentsKey, groupKey, historyKey, parentgroupKey]
          attachmentsKey = .ok [groupKey, historyKey, parentgroupKey] := rfl
      have r3 : removeE [groupKey, historyKey, parentgroupKey] groupKey
          = .ok [historyKey, parentgroupKey] := rfl
      have r4 : removeE [historyKey, parentgroupKey] parentgroupKey
          = .ok [historyKey] := rfl
      have rh : (cycStore 0).histIds = [0] := rfl
      simp [entryToDictFuel, r1, r2, r3, r4, rh, hs]

theorem ggo_no_slash (s : Str) : ∀ (acc : Str) (parent : GTree),
    containsSlash s = false → ggo acc s parent = filterMatch (acc ++ s) parent := by
  induction s with
  | nil =>
      intro acc parent _
      simp [ggo]
  | cons c cs ih =>
      intro acc parent h
      simp only [containsSlash, Bool.or_eq_false_iff, decide_eq_false_iff_not] at h
      simp only [ggo, if_neg h.1]
      rw [ih (acc ++ [c]) parent h.2]
      simp

theorem ggo_split (s : Str) : ∀ (acc t : Str) (parent : GTree),
    containsSlash s = false → t ≠ [] →
    ggo acc (s ++ '/' :: t) parent =
      filterMatch (acc ++ s) parent ++
        (filterMatch (acc ++ s) parent).flatMap (fun g => ggo [] t g) := by
  induction s with
  | nil =>
      intro acc t parent _ ht
      simp [ggo, ht]
  | cons c cs ih =>
      intro acc t parent h ht
      simp only [containsSlash, Bool.or_eq_false_iff, decide_eq_false_iff_not] at h
      simp only [List.cons_append, ggo, if_neg h.1, List.append_eq]
      rw [ih (acc ++ [c]) t parent h.2 ht]
      simp

theorem get_groups_no_slash (s : Str) (parent : GTree)
    (h : containsSlash s = false) : get_groups s parent = filterMatch s parent := by
  simpa [get_groups] using ggo_no_slash s [] parent h

theorem get_groups_split (s t : Str) (parent : GTree)
    (h : containsSlash s = false) (ht : t ≠ []) :
    get_groups (s ++ '/' :: t) parent =
      filterMatch s parent ++
        (filterMatch s parent).flatMap (fun g => get_groups t g) := by
  simpa [get_groups] using ggo_split s [] t parent h ht

theorem joinSlash_cons (s : Str) (r : List Str) (hr : r ≠ []) :
    joinSlash (s :: r) = s ++ '/' :: joinSlash r := by
  cases r with
  | nil => exact absurd rfl hr
  | cons a as => rfl

theorem joinSlash_ne_nil {r : List Str} (hne : r ≠ []) (h : ∀ s ∈ r, s ≠ []) :
    joinSlash r ≠ [] := by
  cases r with
  | nil => exact absurd rfl hne
  | cons a as =>
      cases as with
      | nil => simpa [joinSlash] using h a (by simp)
      | cons b bs => simp [joinSlash]

theorem fullDepthMatches_single (s : Str) (parent : GTree) :
    fullDepthMatches [s] parent = filterMatch s parent := by
  simp [fullDepthMatches, List.flatMap_singleton']

/-- Claim C2 is false on the code at a concrete input: resolving the
two-segment path `A/B` returns the head-matched group `A` together with
the full-depth group `B`, whereas resolving only at full depth (the
spec-described behaviour, `fullDepthMatches`) returns `B` alone. -/
theorem c2_counterexample :
    get_groups "A/B".toList rootAB = [groupA, groupB] ∧
    fullDepthMatches ["A".toList, "B".toList] rootAB = [groupB] ∧
    (get_groups "A/B".toList rootAB).length ≠
      (fullDepthMatches ["A".toList, "B".toList] rootAB).length :=
  ⟨rfl, rfl, by decide⟩

/-- Claim C2 (amended): for a multi-segment path the Group Resolver
returns the groups matched at EVERY nonempty segment depth, not only at
the full depth — a group is in the result exactly when it is a full-depth
match of some nonempty segment-list prefix of the path. -/
theorem c2_all_depth_union (segs : List Str) : ∀ (parent : GTree) (g : GTree),
    segs ≠ [] → (∀ s ∈ segs, s ≠ [] ∧ containsSlash s = false) →
    (g ∈ get_groups (joinSlash segs) parent ↔
      ∃ k, 1 ≤ k ∧ k ≤ segs.length ∧
        g ∈ fullDepthMatches (List.take k segs) parent) := by
  induction segs with
  | nil =>
      intro parent g hne _
      exact absurd rfl hne
  | cons s rest ih =>
      intro parent g _ hs
      have hss := hs s (by simp)
      cases rest with
      | nil =>
          rw [show joinSlash [s] = s from rfl, get_groups_no_slash s parent hss.2]
          constructor
          · intro hm
            refine ⟨1, le_refl 1, by simp, ?_⟩
            rw [show List.take 1 [s] = [s] from rfl, fullDepthMatches_single]
            exact hm
          · rintro ⟨k, hk1, hk2, hmem⟩
            have hk : k = 1 := le_antisymm (by simpa using hk2) hk1
            subst hk
            rw [show List.take 1 [s] = [s] from rfl, fullDepthMatches_single] at hmem
            exact hmem
      | cons s2 rest2 =>
          have hrest_ne : (s2 :: rest2) ≠ [] := by simp
          have htail : ∀ x ∈ s2 :: rest2, x ≠ [] ∧ containsSlash x = false :=
            fun x hx => hs x (List.mem_cons_of_mem _ hx)
          have hjoin_ne : joinSlash (s2 :: rest2) ≠ [] :=
            joinSlash_ne_nil hrest_ne (fun x hx => (htail x hx).1)
          rw [joinSlash_cons s (s2 :: rest2) hrest_ne,
            get_groups_split s (joinSlash (s2 :: rest2)) parent hss.2 hjoin_ne]
          constructor
          · intro hm
            rcases List.mem_append.mp hm with hm | hm
            · refine ⟨1, le_refl 1, by simp, ?_⟩
              rw [show List.take 1 (s :: s2 :: rest2) = [s] from rfl,
                fullDepthMatches_single]
              exact hm
            · rcases List.mem_flatMap.mp hm with ⟨g', hg'A, hgm⟩
              rcases (ih g' g hrest_ne htail).mp hgm with ⟨k, hk1, hk2, hmem⟩
              refine ⟨k + 1, by omega, ?_, ?_⟩
              · simp only [List.length_cons]
                simp only [List.length_cons] at hk2
                omega
              · rw [show List.take (k + 1) (s :: s2 :: rest2) =
                    s :: List.take k (s2 :: rest2) from rfl]
                simp only [fullDepthMatches]
                exact List.mem_flatMap.mpr ⟨g', hg'A, hmem⟩
          · rintro ⟨k, hk1, hk2, hmem⟩
            cases k with
            | zero => omega
            | succ k' =>
                rw [show List.take (k' + 1) (s :: s2 :: rest2) =
                    s :: List.take k' (s2 :: rest2) from rfl] at hmem
                simp only [fullDepthMatches] at hmem
                rcases List.mem_flatMap.mp hmem with ⟨g', hg'A, hginner⟩
                rcases Nat.eq_zero_or_pos k' with h0 | hpos
                · subst h0
                  rw [show List.take 0 (s2 :: rest2) = [] from rfl] at hginner
                  simp only [fullDepthMatches, List.mem_singleton] at hginner
                  subst hginner
                  exact List.mem_append.mpr (Or.inl hg'A)
                · have hk2' : k' ≤ (s2 :: rest2).length := by
                    simp only [List.length_cons] at hk2
                    simp only [List.length_cons]
                    omega
                  have hmm := (ih g' g hrest_ne htail).mpr ⟨k', hpos, hk2', hginner⟩
                  exact List.mem_append.mpr
                    (Or.inr (List.mem_flatMap.mpr ⟨g', hg'A, hmm⟩))

/-- Witness for the amended C2 at the two-segment path `A/B` below
`rootAB`. -/
theorem c2_witness :
    groupB ∈ get_groups (joinSlash ["A".toList, "B".toList]) rootAB ↔
      ∃ k, 1 ≤ k ∧ k ≤ (["A".toList, "B".toList] : List Str).length ∧
        groupB ∈ fullDepthMatches (List.take k ["A".toList, "B".toList]) rootAB :=
  c2_all_depth_union ["A".toList, "B".toList] rootAB groupB (by decide) (by decide)

/-- Claim C9 is false on the code at a concrete input: the group named
`a*` exists directly below the root, its slash-delimited path from the
root is its name, yet resolving that path yields the empty set because
each path segment is matched as a regular expression and the regex `a*`
does not match the string `a*`. -/
theorem c9_counterexample :
    groupStar ∈ childList rootStar ∧
    joinSlash [gname groupStar] = gname groupStar ∧
    get_groups (gname groupStar) rootStar = [] :=
  ⟨List.mem_singleton_self groupStar, rfl, rfl⟩

/-- Claim C9 (amended): the round-trip holds for every group whose path
segments are regex-self-matching and slash-free (in particular every
group whose names contain no regex metacharacters and no `/`): if `g` is
reachable from `parent` by the literal name chain `names`, then resolving
`joinSlash names` from `parent` includes `g`. -/
theorem c9_roundtrip (names : List Str) : ∀ (parent : GTree) (g : GTree),
    names ≠ [] →
    (∀ n ∈ names, n ≠ [] ∧ containsSlash n = false ∧ rmatch n n = true) →
    g ∈ groupsAtPath parent names → g ∈ get_groups (joinSlash names) parent := by
  induction names with
  | nil =>
      intro parent g hne _ _
      exact absurd rfl hne
  | cons n rest ih =>
      intro parent g _ hs hg
      have hn := hs n (by simp)
      cases rest with
      | nil =>
          simp only [groupsAtPath] at hg
          rcases List.mem_flatMap.mp hg with ⟨c, hc, hgc⟩
          have heq : gname c = n := by simpa using (List.mem_filter.mp hc).2
          have hcmem := (List.mem_filter.mp hc).1
          simp only [groupsAtPath, List.mem_singleton] at hgc
          subst hgc
          rw [show joinSlash [n] = n from rfl, get_groups_no_slash n parent hn.2.1]
          refine List.mem_filter.mpr ⟨hcmem, ?_⟩
          rw [heq]
          exact hn.2.2
      | cons n2 rest2 =>
          simp only [groupsAtPath] at hg
          rcases List.mem_flatMap.mp hg with ⟨c, hc, hgc⟩
          have heq : gname c = n := by simpa using (List.mem_filter.mp hc).2
          have hrest_ne : (n2 :: rest2) ≠ [] := by simp
          have htail : ∀ x ∈ n2 :: rest2,
              x ≠ [] ∧ containsSlash x = false ∧ rmatch x x = true :=
            fun x hx => hs x (List.mem_cons_of_mem _ hx)
          have hjoin_ne : joinSlash (n2 :: rest2) ≠ [] :=
            joinSlash_ne_nil hrest_ne (fun x hx => (htail x hx).1)
          rw [joinSlash_cons n (n2 :: rest2) hrest_ne,
            get_groups_split n (joinSlash (n2 :: rest2)) parent hn.2.1 hjoin_ne]
          refine List.mem_append.mpr (Or.inr (List.mem_flatMap.mpr ⟨c, ?_, ?_⟩))
          · refine List.mem_filter.mpr ⟨(List.mem_filter.mp hc).1, ?_⟩
            rw [heq]
            exact hn.2.2
          · exact ih c g hrest_ne htail hgc

/-- Witness for the amended C9: the scenario group `Servers` is recovered
by resolving its own path from the root. -/
theorem c9_witness :
    serversGroup ∈ get_groups (joinSlash ["Servers".toList]) dbScenario :=
  c9_roundtrip ["Servers".toList] dbScenario serversGroup (by decide) (by decide)
    (List.mem_singleton_self serversGroup)
